import Mathlib

/-!
# Verification of the `getUserInput` prompt library

A shallow embedding, in Lean 4, of the interactive prompt-and-validate
module (source: `src/getuserinput.py`; the older `src/getUserInput.py` has
the same logic for every function modelled here).

Modelling conventions:

* A console interaction is a pure function from the list of pending input
  lines to the pair (list of printed lines, result).  Each `print(x)` call
  contributes the string `x` to the output list.
* Python `int` is `Int`.  Python `float` is modelled as an exact decimal
  value `m / 10 ^ e` (mantissa `m : Int`, scale `e : Nat`), kept in the
  normal form Python's `repr` would print (at least one fractional digit,
  no redundant trailing fractional zeros).  This is exact for the short
  decimal literals the claims are about; IEEE-754 rounding of long
  literals is outside the model.
* The subset of Python's `float(text)` literal grammar modelled here:
  optional single sign, decimal digits with at most one decimal point,
  at least one digit.  Exponents, `inf`/`nan`, underscores and
  surrounding whitespace are outside the model; every concrete input the
  claims mention is inside it.
* `SystemExit`, `EOFError` (reading with no input left) and the
  `IndexError` of `_TruncateAtMax` appear as explicit result
  constructors / `Option` failures.
-/

/-! ## Decimal digits: printing and parsing -/

/-- The character for one decimal digit (`0 ≤ d ≤ 9`; total, clamping to `9`). -/
def digCh : Nat → Char
  | 0 => '0'
  | 1 => '1'
  | 2 => '2'
  | 3 => '3'
  | 4 => '4'
  | 5 => '5'
  | 6 => '6'
  | 7 => '7'
  | 8 => '8'
  | _ => '9'

/-- The numeric value of a digit character. -/
def digVal (c : Char) : Nat := c.toNat - '0'.toNat

theorem digCh_isDigit (d : Nat) (h : d < 10) : (digCh d).isDigit = true := by
  interval_cases d <;> rfl

theorem digVal_digCh (d : Nat) (h : d < 10) : digVal (digCh d) = d := by
  interval_cases d <;> rfl

theorem isDigit_ne_dot {c : Char} (h : c.isDigit = true) : c ≠ '.' := by
  intro e; rw [e] at h; exact absurd h (by decide)

theorem isDigit_ne_minus {c : Char} (h : c.isDigit = true) : c ≠ '-' := by
  intro e; rw [e] at h; exact absurd h (by decide)

theorem isDigit_not_ws {c : Char} (h : c.isDigit = true) : c.isWhitespace = false := by
  cases hw : c.isWhitespace
  · rfl
  · exfalso
    simp only [Char.isWhitespace, Bool.or_eq_true, decide_eq_true_eq] at hw
    rcases hw with ((h1 | h1) | h1) | h1 <;> subst_vars <;> exact absurd h (by decide)

/-- The value of a big-endian digit string (Horner evaluation). -/
def valD (cs : List Char) : Nat := cs.foldl (fun a c => a * 10 + digVal c) 0

theorem valD_foldl_acc (cs : List Char) :
    ∀ acc : Nat, cs.foldl (fun a c => a * 10 + digVal c) acc =
      acc * 10 ^ cs.length + valD cs := by
  induction cs with
  | nil => intro acc; simp [valD]
  | cons c cs ih =>
      intro acc
      have h1 := ih (acc * 10 + digVal c)
      have h2 := ih (digVal c)
      simp only [List.foldl_cons, List.length_cons, valD] at *
      rw [Nat.zero_mul, Nat.zero_add, h1, h2]
      ring

theorem valD_append (xs ys : List Char) :
    valD (xs ++ ys) = valD xs * 10 ^ ys.length + valD ys := by
  unfold valD
  rw [List.foldl_append, valD_foldl_acc]
  rfl

theorem valD_replicate_zero (k : Nat) : valD (List.replicate k '0') = 0 := by
  induction k with
  | zero => rfl
  | succ n ih =>
      have : valD (List.replicate (n + 1) '0') = valD (List.replicate n '0' ++ ['0']) := by
        rw [← List.replicate_succ']
      rw [this, valD_append, ih]
      rfl

/-- Left-to-right decimal parser with accumulator; fails at the first
non-digit character. -/
def parseAux : Nat → List Char → Option Nat
  | acc, [] => some acc
  | acc, c :: cs => if c.isDigit then parseAux (acc * 10 + digVal c) cs else none

/-- Parse a nonempty all-digit string (leading zeros allowed). -/
def parseDigits (cs : List Char) : Option Nat :=
  if cs.isEmpty then none else parseAux 0 cs

theorem parseAux_digits (cs : List Char) (h : ∀ c ∈ cs, c.isDigit = true) :
    ∀ acc : Nat, parseAux acc cs = some (cs.foldl (fun a c => a * 10 + digVal c) acc) := by
  induction cs with
  | nil => intro acc; rfl
  | cons c cs ih =>
      intro acc
      have hc : c.isDigit = true := h c (List.mem_cons_self c cs)
      have hrest : ∀ x ∈ cs, x.isDigit = true := fun x hx => h x (List.mem_cons_of_mem c hx)
      simp only [parseAux, hc, if_true, List.foldl_cons]
      exact ih hrest (acc * 10 + digVal c)

theorem parseDigits_digits (cs : List Char) (hne : cs ≠ [])
    (h : ∀ c ∈ cs, c.isDigit = true) : parseDigits cs = some (valD cs) := by
  unfold parseDigits
  rw [if_neg (by simpa [List.isEmpty_iff] using hne)]
  exact parseAux_digits cs h 0

/-! ## Printing naturals and integers in decimal -/

/-- Big-endian digit string of `n`, driven by explicit fuel so that the
definition is structural (kernel-reducible); returns `[]` for `0`. -/
def natStrGo : Nat → Nat → List Char
  | 0, _ => []
  | fuel + 1, n => if n = 0 then [] else natStrGo fuel (n / 10) ++ [digCh (n % 10)]

/-- Decimal digit string of a natural number (mirrors Python `str(n)`). -/
def natStrL (n : Nat) : List Char := if n = 0 then ['0'] else natStrGo n n

theorem natStrGo_digits : ∀ fuel n : Nat, ∀ c ∈ natStrGo fuel n, c.isDigit = true := by
  intro fuel
  induction fuel with
  | zero => intro n c hc; simp [natStrGo] at hc
  | succ f ih =>
      intro n c hc
      by_cases hn : n = 0
      · simp [natStrGo, hn] at hc
      · simp only [natStrGo, hn, if_false, List.mem_append, List.mem_singleton] at hc
        rcases hc with hc | hc
        · exact ih (n / 10) c hc
        · rw [hc]; exact digCh_isDigit _ (Nat.mod_lt _ (by decide))

theorem natStrGo_val : ∀ fuel n : Nat, n ≤ fuel → valD (natStrGo fuel n) = n := by
  intro fuel
  induction fuel with
  | zero => intro n h; interval_cases n; rfl
  | succ f ih =>
      intro n h
      by_cases hn : n = 0
      · simp [natStrGo, hn, valD]
      · have hdiv : n / 10 ≤ f := by
          have : n / 10 < n := Nat.div_lt_self (Nat.pos_of_ne_zero hn) (by decide)
          omega
        simp only [natStrGo, hn, if_false]
        rw [valD_append, ih (n / 10) hdiv]
        simp only [List.length_singleton, pow_one]
        have : valD [digCh (n % 10)] = digVal (digCh (n % 10)) := by
          simp [valD, List.foldl]
        rw [this, digVal_digCh _ (Nat.mod_lt _ (by decide))]
        omega

theorem natStrL_digits (n : Nat) : ∀ c ∈ natStrL n, c.isDigit = true := by
  intro c hc
  unfold natStrL at hc
  by_cases hn : n = 0
  · simp [hn] at hc; rw [hc]; rfl
  · rw [if_neg hn] at hc
    exact natStrGo_digits n n c hc

theorem natStrL_val (n : Nat) : valD (natStrL n) = n := by
  unfold natStrL
  by_cases hn : n = 0
  · simp [hn]; rfl
  · rw [if_neg hn]
    exact natStrGo_val n n (le_refl n)

theorem natStrL_ne_nil (n : Nat) : natStrL n ≠ [] := by
  unfold natStrL
  by_cases hn : n = 0
  · simp [hn]
  · rw [if_neg hn]
    rcases n with _ | m
    · exact absurd rfl hn
    · simp only [natStrGo, hn, if_false]
      exact List.append_ne_nil_of_right_ne_nil _ (by simp)

theorem parseDigits_natStrL (n : Nat) : parseDigits (natStrL n) = some n := by
  rw [parseDigits_digits _ (natStrL_ne_nil n) (natStrL_digits n), natStrL_val]

/-- Decimal string of an integer (mirrors Python `str(i)` / `f"{i}"`). -/
def intStrL (i : Int) : List Char :=
  if i < 0 then '-' :: natStrL i.natAbs else natStrL i.natAbs

/-- Thousands-separated digit grouping, applied to a big-endian digit list
(mirrors Python format `f"{n:,}"`); the recursion walks the reversed list. -/
def commaAux : List Char → List Char
  | [] => []
  | [a] => [a]
  | [a, b] => [a, b]
  | [a, b, c] => [a, b, c]
  | a :: b :: c :: d :: rest => a :: b :: c :: ',' :: commaAux (d :: rest)

/-- `f"{i:,}"`: decimal with grouped thousands separators. -/
def commaStrL (i : Int) : List Char :=
  (if i < 0 then ['-'] else []) ++ (commaAux (natStrL i.natAbs).reverse).reverse

/-! ## The modelled subset of Python `float(text)` parsing

`parseUDecL` parses an unsigned decimal literal (digits with at most one
decimal point, at least one digit) into `(mantissa, scale)` with value
`mantissa / 10 ^ scale`; `parseDecL` adds the optional sign.  `none`
models `ValueError`. -/

/-- Finish parsing once the text has been split at the first `'.'`:
`intPart` is the text before it, the argument the (dot-headed) remainder. -/
def parseUDecGo (intPart : List Char) : List Char → Option (Nat × Nat)
  | [] =>
      match parseDigits intPart with
      | none => none
      | some a => some (a, 0)
  | _ :: frac =>
      if frac.any (fun c => c == '.') then none
      else if intPart.isEmpty && frac.isEmpty then none
      else
        match (if intPart.isEmpty then some 0 else parseDigits intPart),
              (if frac.isEmpty then some 0 else parseDigits frac) with
        | some a, some b => some (a * 10 ^ frac.length + b, frac.length)
        | _, _ => none

def parseUDecL (cs : List Char) : Option (Nat × Nat) :=
  parseUDecGo (cs.takeWhile (fun c => c != '.')) (cs.dropWhile (fun c => c != '.'))

def parseDecL (cs : List Char) : Option (Int × Nat) :=
  match cs with
  | '-' :: rest =>
      match parseUDecL rest with
      | some (a, e) => some (-(a : Int), e)
      | none => none
  | '+' :: rest =>
      match parseUDecL rest with
      | some (a, e) => some ((a : Int), e)
      | none => none
  | _ =>
      match parseUDecL cs with
      | some (a, e) => some ((a : Int), e)
      | none => none

/-! ## Python numbers -/

/-- A Python number as the prompt library handles it: an `int`, or a
`float` stored as the exact decimal `m / 10 ^ e` (see the header). -/
inductive PyNum where
  | int : Int → PyNum
  | float : Int → Nat → PyNum
deriving DecidableEq

/-- The rational value of a `PyNum`. -/
def PyNum.val : PyNum → ℚ
  | .int n => (n : ℚ)
  | .float m e => (m : ℚ) / 10 ^ e

/-- Strip redundant trailing fractional zeros, keeping at least one
fractional digit: the mantissa/scale normal form of Python float `repr`. -/
def stripZeros : Int → Nat → Int × Nat
  | m, 0 => (m, 0)
  | m, 1 => (m, 1)
  | m, e + 2 => if Int.emod m 10 = 0 then stripZeros (Int.tdiv m 10) (e + 1) else (m, e + 2)

/-- Build the normal-form float of value `m / 10 ^ e`. -/
def normFloat (m : Int) (e : Nat) : Int × Nat :=
  if e = 0 then (m * 10, 1) else stripZeros m e

def pyFloatMk (m : Int) (e : Nat) : PyNum :=
  PyNum.float (normFloat m e).1 (normFloat m e).2

/-- The coercion step of `_AcceptAndValidateNumber` (source lines 252-254):
`int(float(text))` when the raw text has no `"."`, else `float(text)`.
(Within the modelled grammar a dot-free literal is a plain integer, so the
`int(...)` truncation is the identity there.) -/
def coerceNumber (line : String) : Option PyNum :=
  match parseDecL line.toList with
  | none => none
  | some (m, e) =>
      if line.toList.any (fun c => c == '.') then some (pyFloatMk m e)
      else some (PyNum.int m)

/-! ## Python `repr` of the modelled numbers, and the `eval`-ed range check

`GetNumberInRange` decides the range check by building the text
`f"{min_opt}<={num_choice}<={max_opt}"` and passing it to `eval`
(source line 229).  `rangeExprL` models the f-string; `evalChainedLe`
models `eval` on the resulting expression shape (a chained `<=`
comparison of two numeric literals around one numeric literal, with
Python's chained-comparison semantics). -/

/-- Unsigned part of Python float `repr` for value `n / 10 ^ e`: the digit
string of `n` left-padded with zeros to at least `e + 1` digits, with the
decimal point inserted `e` digits from the right. -/
def floatReprUns (n : Nat) (e : Nat) : List Char :=
  let pad := List.replicate (e + 1 - (natStrL n).length) '0' ++ natStrL n
  pad.take (pad.length - e) ++ '.' :: pad.drop (pad.length - e)

def floatReprL (m : Int) (e : Nat) : List Char :=
  if m < 0 then '-' :: floatReprUns m.natAbs e else floatReprUns m.natAbs e

/-- `f"{v}"` for a modelled Python number. -/
def pyReprL : PyNum → List Char
  | .int n => intStrL n
  | .float m e => floatReprL m e

/-- The text `f"{a}<={v}<={b}"` synthesized by `GetNumberInRange`. -/
def rangeExprL (a : Int) (v : PyNum) (b : Int) : List Char :=
  intStrL a ++ '<' :: '=' :: (pyReprL v ++ '<' :: '=' :: intStrL b)

/-- A character a numeric literal may contain (digit or decimal point). -/
def numChar (c : Char) : Bool := c.isDigit || c == '.'

/-- Scan one unsigned numeric literal at the head of the text, kept as
the exact mantissa/scale pair `(m, e)` of value `m / 10 ^ e`. -/
def scanNumU (cs : List Char) : Option ((Int × Nat) × List Char) :=
  match parseUDecL (cs.takeWhile numChar) with
  | none => none
  | some (a, e) => some (((a : Int), e), cs.dropWhile numChar)

/-- Scan one numeric literal, with an optional leading minus sign. -/
def scanNum (cs : List Char) : Option ((Int × Nat) × List Char) :=
  if cs.head? = some '-' then
    match scanNumU cs.tail with
    | none => none
    | some ((m, e), r) => some ((-m, e), r)
  else scanNumU cs

def expectLe : List Char → Option (List Char)
  | '<' :: '=' :: r => some r
  | _ => none

/-- The rational value of a scanned mantissa/scale pair. -/
def decVal (p : Int × Nat) : ℚ := (p.1 : ℚ) / 10 ^ p.2

/-- `≤` on scanned literals by integer cross multiplication — the
comparison Python performs on the two parsed numbers (proved below to
agree with `≤` on the rational values). -/
def decLeB (p q : Int × Nat) : Bool := decide (p.1 * 10 ^ q.2 ≤ q.1 * 10 ^ p.2)

/-- Evaluate a synthesized `A<=B<=C` expression the way Python `eval`
does: parse the three numeric literals and apply the chained comparison.
`none` models an `eval` failure (an exception at the `eval` call). -/
def evalChainedLe (cs : List Char) : Option Bool :=
  match scanNum cs with
  | none => none
  | some (q1, r1) =>
      match expectLe r1 with
      | none => none
      | some r1' =>
          match scanNum r1' with
          | none => none
          | some (q2, r2) =>
              match expectLe r2 with
              | none => none
              | some r2' =>
                  match scanNum r2' with
                  | none => none
                  | some (q3, r3) =>
                      if r3.isEmpty then some (decLeB q1 q2 && decLeB q2 q3) else none

/-- The native chained comparison `a <= v <= b` on the numeric values. -/
def inRangeB (a : Int) (v : PyNum) (b : Int) : Bool :=
  decide ((a : ℚ) ≤ PyNum.val v ∧ PyNum.val v ≤ (b : ℚ))

/-! ## Round-trip lemmas: printed numerals parse back to their values -/

theorem bne_dot_of_digit {c : Char} (h : c.isDigit = true) : (c != '.') = true := by
  simp [bne_iff_ne, isDigit_ne_dot h]

theorem beq_dot_of_digit {c : Char} (h : c.isDigit = true) : (c == '.') = false := by
  simp [isDigit_ne_dot h]

theorem numChar_of_digit {c : Char} (h : c.isDigit = true) : numChar c = true := by
  simp [numChar, h]

theorem takeWhile_split (p : Char → Bool) (A : List Char) (x : Char) (B : List Char)
    (hA : ∀ c ∈ A, p c = true) (hx : p x = false) :
    (A ++ x :: B).takeWhile p = A ∧ (A ++ x :: B).dropWhile p = x :: B := by
  induction A with
  | nil => simp [List.takeWhile, List.dropWhile, hx]
  | cons a A ih =>
      have ha : p a = true := hA a (List.mem_cons_self a A)
      have hrest : ∀ c ∈ A, p c = true := fun c hc => hA c (List.mem_cons_of_mem a hc)
      obtain ⟨ih1, ih2⟩ := ih hrest
      constructor
      · simp [List.takeWhile_cons, ha, ih1]
      · simp [List.dropWhile_cons, ha, ih2]

theorem takeWhile_all (p : Char → Bool) (A : List Char) (hA : ∀ c ∈ A, p c = true) :
    A.takeWhile p = A ∧ A.dropWhile p = [] := by
  induction A with
  | nil => simp
  | cons a A ih =>
      have ha : p a = true := hA a (List.mem_cons_self a A)
      have hrest : ∀ c ∈ A, p c = true := fun c hc => hA c (List.mem_cons_of_mem a hc)
      obtain ⟨ih1, ih2⟩ := ih hrest
      constructor
      · simp [List.takeWhile_cons, ha, ih1]
      · simp [List.dropWhile_cons, ha, ih2]

theorem parseUDecL_digits (cs : List Char) (hne : cs ≠ [])
    (h : ∀ c ∈ cs, c.isDigit = true) : parseUDecL cs = some (valD cs, 0) := by
  obtain ⟨h1, h2⟩ := takeWhile_all (fun c => c != '.') cs
    (fun c hc => bne_dot_of_digit (h c hc))
  unfold parseUDecL
  rw [h1, h2]
  simp only [parseUDecGo]
  rw [parseDigits_digits cs hne h]

/-- Structure of the unsigned float `repr`: digits, a dot, `e` digits, with
the concatenated digit string evaluating to the mantissa. -/
theorem floatReprUns_eq (n e : Nat) :
    ∃ A B : List Char, floatReprUns n e = A ++ '.' :: B ∧ A ≠ [] ∧
      (∀ c ∈ A, c.isDigit = true) ∧ (∀ c ∈ B, c.isDigit = true) ∧
      valD A * 10 ^ B.length + valD B = n ∧ B.length = e := by
  set ds := natStrL n with hds
  set pad : List Char := List.replicate (e + 1 - ds.length) '0' ++ ds with hpad
  have hpadd : ∀ c ∈ pad, c.isDigit = true := by
    intro c hc
    rw [hpad] at hc
    rcases List.mem_append.mp hc with hc | hc
    · rw [List.eq_of_mem_replicate hc]; rfl
    · exact natStrL_digits n c hc
  have hL : e + 1 ≤ pad.length := by
    rw [hpad]
    simp only [List.length_append, List.length_replicate]
    omega
  have hvpad : valD pad = n := by
    rw [hpad, valD_append, valD_replicate_zero, hds, natStrL_val]
    ring
  refine ⟨pad.take (pad.length - e), pad.drop (pad.length - e), ?_, ?_, ?_, ?_, ?_, ?_⟩
  · rfl
  · have : (pad.take (pad.length - e)).length = pad.length - e := by
      rw [List.length_take]; omega
    intro hnil
    rw [hnil] at this
    simp at this
    omega
  · intro c hc; exact hpadd c (List.mem_of_mem_take hc)
  · intro c hc; exact hpadd c (List.mem_of_mem_drop hc)
  · have hlenB : (pad.drop (pad.length - e)).length = e := by
      rw [List.length_drop]; omega
    rw [hlenB, ← hvpad]
    conv_rhs => rw [← List.take_append_drop (pad.length - e) pad]
    rw [valD_append, hlenB]
  · rw [List.length_drop]; omega

theorem parseUDecL_floatReprUns (n e : Nat) :
    parseUDecL (floatReprUns n e) = some (n, e) := by
  obtain ⟨A, B, heq, hAne, hAd, hBd, hval, hBlen⟩ := floatReprUns_eq n e
  obtain ⟨h1, h2⟩ := takeWhile_split (fun c => c != '.') A '.' B
    (fun c hc => bne_dot_of_digit (hAd c hc)) (by decide)
  have hany : B.any (fun c => c == '.') = false := by
    rw [List.any_eq_false]
    intro c hc
    simp [beq_dot_of_digit (hBd c hc)]
  have hAemp : A.isEmpty = false := by
    simpa [List.isEmpty_iff] using hAne
  have hBparse : (if B.isEmpty then some 0 else parseDigits B) = some (valD B) := by
    match B with
    | [] => rfl
    | b :: B' => exact parseDigits_digits _ (by simp) hBd
  rw [heq]
  unfold parseUDecL
  rw [h1, h2]
  simp only [parseUDecGo]
  rw [hany, hAemp]
  simp only [Bool.false_and, if_false, Bool.false_eq_true]
  rw [hBparse, parseDigits_digits A hAne hAd]
  show some (valD A * 10 ^ B.length + valD B, B.length) = some (n, e)
  rw [hval, hBlen]

theorem scanNumU_spec (U rest : List Char) (a e : Nat)
    (hU : ∀ c ∈ U, numChar c = true)
    (hrest : rest = [] ∨ rest.head? = some '<')
    (hp : parseUDecL U = some (a, e)) :
    scanNumU (U ++ rest) = some (((a : Int), e), rest) := by
  have hsplit : (U ++ rest).takeWhile numChar = U ∧ (U ++ rest).dropWhile numChar = rest := by
    rcases hrest with h | h
    · rw [h, List.append_nil]; exact takeWhile_all numChar U hU
    · rcases rest with _ | ⟨c, r⟩
      · simp at h
      · have hc : c = '<' := by simpa using h
        subst hc
        exact takeWhile_split numChar U '<' r hU (by decide)
  obtain ⟨h1, h2⟩ := hsplit
  unfold scanNumU
  rw [h1, h2, hp]

theorem parseUDecL_natStrL (n : Nat) : parseUDecL (natStrL n) = some (n, 0) := by
  rw [parseUDecL_digits _ (natStrL_ne_nil n) (natStrL_digits n), natStrL_val]

theorem scanNum_cons_ne_minus (u : Char) (t : List Char) (hu : u ≠ '-') :
    scanNum (u :: t) = scanNumU (u :: t) := by
  unfold scanNum
  have hc : ¬((u :: t).head? = some '-') := by simp [hu]
  rw [if_neg hc]

theorem scanNum_minus (t : List Char) (m : Int) (e : Nat) (r : List Char)
    (h : scanNumU t = some ((m, e), r)) :
    scanNum ('-' :: t) = some ((-m, e), r) := by
  unfold scanNum
  rw [if_pos (by simp : (('-' :: t).head? = some '-'))]
  have ht : ('-' :: t).tail = t := rfl
  rw [ht, h]

/-- The pair a scanned `repr` denotes: `pyReprL v` scans back to exactly
this mantissa/scale pair. -/
def pyPair : PyNum → Int × Nat
  | .int n => (n, 0)
  | .float m e => (m, e)

theorem val_eq_decVal (v : PyNum) : PyNum.val v = decVal (pyPair v) := by
  cases v with
  | int n => simp [PyNum.val, pyPair, decVal]
  | float m e => rfl

theorem scanNum_pyRepr (v : PyNum) (rest : List Char)
    (hrest : rest = [] ∨ rest.head? = some '<') :
    scanNum (pyReprL v ++ rest) = some (pyPair v, rest) := by
  cases v with
  | int n =>
      have hU : ∀ c ∈ natStrL n.natAbs, numChar c = true :=
        fun c hc => numChar_of_digit (natStrL_digits _ c hc)
      have hscan := scanNumU_spec (natStrL n.natAbs) rest n.natAbs 0 hU hrest
        (parseUDecL_natStrL _)
      by_cases hn : n < 0
      · have hrepr : pyReprL (PyNum.int n) = '-' :: natStrL n.natAbs := by
          simp [pyReprL, intStrL, hn]
        rw [hrepr, List.cons_append, scanNum_minus _ _ _ _ hscan]
        have hv : -((n.natAbs : Int)) = n := by omega
        rw [hv]; rfl
      · obtain ⟨u, U, hU2⟩ : ∃ u U, natStrL n.natAbs = u :: U := by
          rcases hnil : natStrL n.natAbs with _ | ⟨u, U⟩
          · exact absurd hnil (natStrL_ne_nil _)
          · exact ⟨u, U, rfl⟩
        have hrepr : pyReprL (PyNum.int n) = natStrL n.natAbs := by
          simp [pyReprL, intStrL, hn]
        have hud : u.isDigit = true :=
          natStrL_digits _ u (by rw [hU2]; exact List.mem_cons_self _ _)
        rw [hrepr, hU2, List.cons_append,
          scanNum_cons_ne_minus u (U ++ rest) (isDigit_ne_minus hud),
          ← List.cons_append, ← hU2, hscan]
        have hv : ((n.natAbs : Int)) = n := by omega
        rw [hv]; rfl
  | float m e =>
      obtain ⟨A, B, heq, hAne, hAd, hBd, hval, hBlen⟩ := floatReprUns_eq m.natAbs e
      have hnum : ∀ c ∈ floatReprUns m.natAbs e, numChar c = true := by
        intro c hc
        rw [heq] at hc
        rcases List.mem_append.mp hc with hc | hc
        · exact numChar_of_digit (hAd c hc)
        · rcases List.mem_cons.mp hc with hc | hc
          · rw [hc]; rfl
          · exact numChar_of_digit (hBd c hc)
      have hscan := scanNumU_spec (floatReprUns m.natAbs e) rest m.natAbs e hnum hrest
        (parseUDecL_floatReprUns m.natAbs e)
      by_cases hm : m < 0
      · have hrepr : pyReprL (PyNum.float m e) = '-' :: floatReprUns m.natAbs e := by
          simp [pyReprL, floatReprL, hm]
        rw [hrepr, List.cons_append, scanNum_minus _ _ _ _ hscan]
        have hv : -((m.natAbs : Int)) = m := by omega
        rw [hv]; rfl
      · obtain ⟨a0, A', hA⟩ : ∃ a0 A', A = a0 :: A' := by
          rcases A with _ | ⟨x, xs⟩
          · exact absurd rfl hAne
          · exact ⟨x, xs, rfl⟩
        have ha0 : a0.isDigit = true := hAd a0 (by rw [hA]; exact List.mem_cons_self _ _)
        have hrepr : pyReprL (PyNum.float m e) = floatReprUns m.natAbs e := by
          simp [pyReprL, floatReprL, hm]
        have hcons : floatReprUns m.natAbs e ++ rest = a0 :: ((A' ++ '.' :: B) ++ rest) := by
          rw [heq, hA]; simp
        rw [hrepr, hcons, scanNum_cons_ne_minus a0 _ (isDigit_ne_minus ha0), ← hcons, hscan]
        have hv : ((m.natAbs : Int)) = m := by omega
        rw [hv]; rfl

theorem pyReprL_int (n : Int) : pyReprL (PyNum.int n) = intStrL n := rfl

theorem val_int (n : Int) : PyNum.val (PyNum.int n) = (n : ℚ) := rfl

/-- Cross multiplication of scanned literals agrees with `≤` on their
rational values. -/
theorem decLeB_decVal (p q : Int × Nat) :
    decLeB p q = decide (decVal p ≤ decVal q) := by
  unfold decLeB decVal
  rw [decide_eq_decide, div_le_div_iff₀ (by positivity) (by positivity)]
  constructor
  · intro h; exact_mod_cast h
  · intro h; exact_mod_cast h

/-- The synthesized `f"{a}<={v}<={b}"` text, fed to `eval`, always
evaluates (no exception) and yields exactly the native chained numeric
comparison of the three values. -/
theorem evalRangeExpr (a b : Int) (v : PyNum) :
    evalChainedLe (rangeExprL a v b) = some (inRangeB a v b) := by
  have h1 := scanNum_pyRepr (PyNum.int a)
    ('<' :: '=' :: (pyReprL v ++ '<' :: '=' :: intStrL b)) (Or.inr rfl)
  have h2 := scanNum_pyRepr v ('<' :: '=' :: intStrL b) (Or.inr rfl)
  have h3 := scanNum_pyRepr (PyNum.int b) [] (Or.inl rfl)
  rw [pyReprL_int] at h1 h3
  rw [List.append_nil] at h3
  unfold rangeExprL evalChainedLe
  rw [h1]
  simp only [expectLe]
  rw [h2]
  simp only [expectLe]
  rw [h3]
  show some (decLeB (pyPair (PyNum.int a)) (pyPair v) &&
        decLeB (pyPair v) (pyPair (PyNum.int b))) = some (inRangeB a v b)
  rw [decLeB_decVal, decLeB_decVal, ← val_eq_decVal, ← val_eq_decVal, ← val_eq_decVal,
    val_int, val_int]
  unfold inRangeB
  congr 1
  by_cases h1 : (a : ℚ) ≤ PyNum.val v <;> by_cases h2 : PyNum.val v ≤ (b : ℚ) <;>
    simp [h1, h2]

/-! ## `_TruncateAtMax`: the greedy text wrapper (source lines 264-296)

`wordsL` models Python `str.split()` (whitespace-run separated tokens,
empties discarded; Lean's `Char.isWhitespace` covers the ASCII whitespace
of the inputs in scope).  `wrapLoop` is the `for term in terms` loop
returning the final `display_str` (its for-else clause always appends the
last `next_line`).  `joinSep` is `spacing.join(...)`, and `truncL` glues
the pieces; `none` models the `IndexError` of `truncated_str[0]` on an
empty joined string. -/

def wordsAux : List Char → List Char → List (List Char)
  | [], acc => if acc.isEmpty then [] else [acc.reverse]
  | c :: cs, acc =>
      if c.isWhitespace then
        if acc.isEmpty then wordsAux cs [] else acc.reverse :: wordsAux cs []
      else wordsAux cs (c :: acc)

/-- Python `str.split()` on a character list. -/
def wordsL (cs : List Char) : List (List Char) := wordsAux cs []

/-- A line accumulated by the loop: each term followed by one space
(`next_line += term + " "`). -/
def lineOf : List (List Char) → List Char
  | [] => []
  | t :: ts => t ++ (' ' :: lineOf ts)

/-- The `for term in terms` accumulation loop, including the for-else
flush of the final `next_line`. -/
def wrapLoop (max_len : Nat) : List (List Char) → List Char → List (List Char)
  | [], nl => [nl]
  | t :: ts, nl =>
      if nl.length + t.length < max_len then wrapLoop max_len ts (nl ++ (t ++ [' ']))
      else nl :: wrapLoop max_len ts (t ++ [' '])

/-- `sep.join(chunks)`. -/
def joinSep (sep : List Char) : List (List Char) → List Char
  | [] => []
  | [x] => x
  | x :: y :: ys => x ++ (sep ++ joinSep sep (y :: ys))

/-- `_TruncateAtMax` on character lists. -/
def truncL (cs : List Char) (max_len spacer : Nat) : Option (List Char) :=
  if (cs.length : Int) ≤ (max_len : Int) - (spacer : Int) then some cs
  else
    match joinSep ('\n' :: List.replicate spacer ' ') (wrapLoop max_len (wordsL cs) []) with
    | [] => none
    | c :: rest => some (if c = '\n' then rest else c :: rest)

/-- `_TruncateAtMax(str, max_len, spacer)`; the Python defaults are
`max_len=80, spacer=1` and are passed explicitly at the call sites of the
model.  `none` models the raised `IndexError`. -/
def _TruncateAtMax (s : String) (max_len : Nat) (spacer : Nat) : Option String :=
  (truncL s.toList max_len spacer).map String.mk

/-! ### Token preservation of the wrapper -/

theorem wordsAux_ws (c : Char) (cs : List Char) (hc : c.isWhitespace = true) :
    wordsAux (c :: cs) [] = wordsAux cs [] := by
  simp [wordsAux, hc]

theorem wordsAux_chars (t : List Char) (hnws : ∀ c ∈ t, c.isWhitespace = false) :
    ∀ rest acc, wordsAux (t ++ rest) acc = wordsAux rest (t.reverse ++ acc) := by
  induction t with
  | nil => intro rest acc; simp
  | cons c t ih =>
      intro rest acc
      have hc : c.isWhitespace = false := hnws c (List.mem_cons_self c t)
      have step : wordsAux ((c :: t) ++ rest) acc = wordsAux (t ++ rest) (c :: acc) := by
        show wordsAux (c :: (t ++ rest)) acc = wordsAux (t ++ rest) (c :: acc)
        simp [wordsAux, hc]
      rw [step, ih (fun x hx => hnws x (List.mem_cons_of_mem c hx)) rest (c :: acc)]
      congr 1
      simp

theorem wordsL_token_cons (t r : List Char)
    (ht : t ≠ []) (hnws : ∀ c ∈ t, c.isWhitespace = false) :
    wordsL (t ++ ' ' :: r) = t :: wordsL r := by
  unfold wordsL
  rw [wordsAux_chars t hnws (' ' :: r) [], List.append_nil]
  have hne : t.reverse.isEmpty = false := by
    simp [List.isEmpty_iff, ht]
  have hstep : wordsAux (' ' :: r) t.reverse = t.reverse.reverse :: wordsAux r [] := by
    simp [wordsAux, hne]
  rw [hstep, List.reverse_reverse]

theorem wordsL_lineOf_append (ts : List (List Char)) (r : List Char)
    (h : ∀ t ∈ ts, t ≠ [] ∧ ∀ c ∈ t, c.isWhitespace = false) :
    wordsL (lineOf ts ++ r) = ts ++ wordsL r := by
  induction ts with
  | nil => simp [lineOf]
  | cons t ts ih =>
      obtain ⟨ht, htw⟩ := h t (List.mem_cons_self t ts)
      have hts : ∀ x ∈ ts, x ≠ [] ∧ ∀ c ∈ x, c.isWhitespace = false :=
        fun x hx => h x (List.mem_cons_of_mem t hx)
      show wordsL ((t ++ (' ' :: lineOf ts)) ++ r) = (t :: ts) ++ wordsL r
      rw [List.append_assoc, List.cons_append, wordsL_token_cons t _ ht htw, ih hts]
      rfl

theorem wordsL_ws_prefix (w : List Char) (hw : ∀ c ∈ w, c.isWhitespace = true) :
    ∀ r, wordsL (w ++ r) = wordsL r := by
  induction w with
  | nil => intro r; rfl
  | cons c w ih =>
      intro r
      have hc : c.isWhitespace = true := hw c (List.mem_cons_self c w)
      show wordsL (c :: (w ++ r)) = wordsL r
      unfold wordsL
      rw [wordsAux_ws c _ hc]
      exact ih (fun x hx => hw x (List.mem_cons_of_mem c hx)) r

theorem wordsAux_good : ∀ cs acc : List Char, (∀ c ∈ acc, c.isWhitespace = false) →
    ∀ t ∈ wordsAux cs acc, t ≠ [] ∧ ∀ c ∈ t, c.isWhitespace = false := by
  intro cs
  induction cs with
  | nil =>
      intro acc hacc t ht
      by_cases ha : acc.isEmpty
      · simp [wordsAux, ha] at ht
      · simp only [wordsAux, ha, Bool.false_eq_true, if_false, List.mem_singleton] at ht
        subst ht
        constructor
        · simp [List.isEmpty_iff] at ha
          simpa using ha
        · intro c hc
          exact hacc c (List.mem_reverse.mp hc)
  | cons c cs ih =>
      intro acc hacc t ht
      by_cases hc : c.isWhitespace
      · by_cases ha : acc.isEmpty
        · simp only [wordsAux, hc, if_true, ha] at ht
          exact ih [] (by simp) t ht
        · simp only [wordsAux, hc, if_true, ha, Bool.false_eq_true, if_false,
            List.mem_cons] at ht
          rcases ht with ht | ht
          · subst ht
            constructor
            · simp [List.isEmpty_iff] at ha
              simpa using ha
            · intro x hx
              exact hacc x (List.mem_reverse.mp hx)
          · exact ih [] (by simp) t ht
      · simp only [wordsAux, hc, Bool.false_eq_true, if_false] at ht
        refine ih (c :: acc) ?_ t ht
        intro x hx
        rcases List.mem_cons.mp hx with hx | hx
        · subst hx
          exact eq_false_of_ne_true hc
        · exact hacc x hx

theorem wordsL_good (cs : List Char) :
    ∀ t ∈ wordsL cs, t ≠ [] ∧ ∀ c ∈ t, c.isWhitespace = false :=
  wordsAux_good cs [] (by simp)

theorem wrapLoop_ne_nil (max_len : Nat) :
    ∀ ts nl, wrapLoop max_len ts nl ≠ [] := by
  intro ts
  induction ts with
  | nil => intro nl; simp [wrapLoop]
  | cons t ts ih =>
      intro nl
      unfold wrapLoop
      by_cases hfit : nl.length + t.length < max_len
      · rw [if_pos hfit]; exact ih _
      · rw [if_neg hfit]; simp

theorem lineOf_append_one (pts : List (List Char)) (t : List Char) :
    lineOf pts ++ (t ++ [' ']) = lineOf (pts ++ [t]) := by
  induction pts with
  | nil => rfl
  | cons p pts ih =>
      show (p ++ (' ' :: lineOf pts)) ++ (t ++ [' ']) = p ++ (' ' :: lineOf (pts ++ [t]))
      rw [List.append_assoc, List.cons_append, ih]

/-- Joining the chunks produced by the wrap loop and re-splitting on
whitespace recovers exactly the pending tokens: `pts` already in the
current line, then `ts` still to be placed. -/
theorem wrapLoop_words (max_len : Nat) (sep : List Char)
    (hsep : ∀ c ∈ sep, c.isWhitespace = true) :
    ∀ ts nl pts, (∀ t ∈ ts, t ≠ [] ∧ ∀ c ∈ t, c.isWhitespace = false) →
      (∀ t ∈ pts, t ≠ [] ∧ ∀ c ∈ t, c.isWhitespace = false) →
      nl = lineOf pts →
      wordsL (joinSep sep (wrapLoop max_len ts nl)) = pts ++ ts := by
  intro ts
  induction ts with
  | nil =>
      intro nl pts hts hpts hnl
      subst hnl
      show wordsL (joinSep sep [lineOf pts]) = pts ++ []
      have hj : joinSep sep [lineOf pts] = lineOf pts := rfl
      rw [hj, List.append_nil]
      have h2 := wordsL_lineOf_append pts [] hpts
      rw [List.append_nil] at h2
      rw [h2]
      have h0 : wordsL ([] : List Char) = [] := rfl
      rw [h0, List.append_nil]
  | cons t ts ih =>
      intro nl pts hts hpts hnl
      obtain ⟨ht, htw⟩ := hts t (List.mem_cons_self t ts)
      have hts' : ∀ x ∈ ts, x ≠ [] ∧ ∀ c ∈ x, c.isWhitespace = false :=
        fun x hx => hts x (List.mem_cons_of_mem t hx)
      unfold wrapLoop
      by_cases hfit : nl.length + t.length < max_len
      · rw [if_pos hfit]
        have hpts' : ∀ x ∈ pts ++ [t], x ≠ [] ∧ ∀ c ∈ x, c.isWhitespace = false := by
          intro x hx
          rcases List.mem_append.mp hx with hx | hx
          · exact hpts x hx
          · rw [List.mem_singleton.mp hx]; exact ⟨ht, htw⟩
        have hnl' : nl ++ (t ++ [' ']) = lineOf (pts ++ [t]) := by
          rw [hnl]; exact lineOf_append_one pts t
        rw [ih (nl ++ (t ++ [' '])) (pts ++ [t]) hts' hpts' hnl']
        simp
      · rw [if_neg hfit]
        obtain ⟨y, ys, hy⟩ : ∃ y ys, wrapLoop max_len ts (t ++ [' ']) = y :: ys := by
          rcases hw : wrapLoop max_len ts (t ++ [' ']) with _ | ⟨y, ys⟩
          · exact absurd hw (wrapLoop_ne_nil max_len ts (t ++ [' ']))
          · exact ⟨y, ys, rfl⟩
        rw [hy]
        show wordsL (nl ++ (sep ++ joinSep sep (y :: ys))) = pts ++ t :: ts
        rw [hnl, wordsL_lineOf_append pts _ hpts, wordsL_ws_prefix sep hsep, ← hy]
        have h1 : ∀ x ∈ [t], x ≠ [] ∧ ∀ c ∈ x, c.isWhitespace = false := by
          intro x hx
          rw [List.mem_singleton.mp hx]; exact ⟨ht, htw⟩
        have hlt : t ++ [' '] = lineOf [t] := rfl
        rw [ih _ [t] hts' h1 hlt]
        rfl

/-- When the guard falls through and the text has at least one token, the
wrapper returns a string whose whitespace-split tokens are exactly those
of the input (so splitting the output and the input agree: nothing lost,
nothing duplicated, the final line included). -/
theorem truncL_words (cs : List Char) (max_len spacer : Nat)
    (hg : ¬ ((cs.length : Int) ≤ (max_len : Int) - (spacer : Int)))
    (hw : wordsL cs ≠ []) :
    ∃ out, truncL cs max_len spacer = some out ∧ wordsL out = wordsL cs := by
  have hsep : ∀ c ∈ ('\n' :: List.replicate spacer ' '), c.isWhitespace = true := by
    intro c hc
    rcases List.mem_cons.mp hc with hc | hc
    · rw [hc]; rfl
    · rw [List.eq_of_mem_replicate hc]; rfl
  have hmain := wrapLoop_words max_len ('\n' :: List.replicate spacer ' ') hsep
    (wordsL cs) [] [] (wordsL_good cs) (by simp) rfl
  rw [List.nil_append] at hmain
  unfold truncL
  rw [if_neg hg]
  rcases hj : joinSep ('\n' :: List.replicate spacer ' ') (wrapLoop max_len (wordsL cs) [])
    with _ | ⟨c, rest⟩
  · rw [hj] at hmain
    exact absurd (by rw [← hmain]; rfl) hw
  · rw [hj] at hmain
    by_cases hc : c = '\n'
    · subst hc
      refine ⟨rest, by simp, ?_⟩
      have hstep : wordsL ('\n' :: rest) = wordsL rest := by
        unfold wordsL
        exact wordsAux_ws _ _ rfl
      rw [← hstep, hmain]
    · exact ⟨c :: rest, by simp [hc], hmain⟩

/-! ## Exit words, `_SysExitMsg`, and the prompt loops -/

def _EXIT_WORDS : List String := ["quit", "exit", "leave"]

/-- `_SysExitMsg(msg="Thanks!")` (source lines 299-305): print the
farewell, then re-raise `SystemExit`.  Modelled as the printed lines; the
raise shows up as the `.exit` result of each caller.  Every call site
uses the default message. -/
def _SysExitMsg (msg : String) : List String := [msg]

/-- Result of a numeric read: a returned number, a propagating
`SystemExit` (farewell already printed), a propagating other exception,
or exhausted input (`EOFError`). -/
inductive NumResult where
  | ok : PyNum → List String → NumResult
  | exit : List String → NumResult
  | errored : List String → NumResult
  | eof : NumResult
deriving DecidableEq

/-- `_AcceptAndValidateNumber` (source lines 239-261): read lines until
one parses as a number; an exit word triggers `_SysExitMsg`, whose
`SystemExit` the `except SystemExit: raise` clause propagates;
`ValueError` prints the retry message and loops; running out of input
(`EOFError`) hits `except Exception`, which prints and re-raises. -/
def _AcceptAndValidateNumber : List String → List String × NumResult
  | [] => (["\nSomething went wrong...\n"], NumResult.eof)
  | line :: rest =>
      if line ∈ _EXIT_WORDS then (_SysExitMsg "Thanks!", NumResult.exit rest)
      else
        match coerceNumber line with
        | some v => ([], NumResult.ok v rest)
        | none =>
            ("Please pick a number." :: (_AcceptAndValidateNumber rest).1,
             (_AcceptAndValidateNumber rest).2)

/-- The range hint `f"(min = {min_opt:,}, max = {max_opt:,})"`. -/
def hintLine (a b : Int) : String :=
  "(min = " ++ String.mk (commaStrL a) ++ ", max = " ++ String.mk (commaStrL b) ++ ")"

/-- `f"Please pick a number between {min_opt} and {max_opt}."`. -/
def betweenMsg (a b : Int) : String :=
  "Please pick a number between " ++ String.mk (intStrL a) ++ " and " ++
    String.mk (intStrL b) ++ "."

/-- The fused loop of `GetNumberInRange` (source lines 214-236) for
already-normalized bounds `a < b`, after the current outer iteration has
printed its hint line.  Per processed line: an exit word is consumed by
`_AcceptAndValidateNumber` (one farewell), and the `except SystemExit`
handler of `GetNumberInRange` then calls `_SysExitMsg()` again (a second
farewell) and re-raises; an unparsable line retries inside
`_AcceptAndValidateNumber` (no new hint); a parsed value that passes the
`eval`-ed range check is returned; one that fails it prints the
out-of-range message, after which the next outer iteration re-prints the
hint.  Exhausted input propagates `EOFError` through the two
`except Exception` handlers, each printing once. -/
def gnirLines (a b : Int) : List String → List String × NumResult
  | [] => (["\nSomething went wrong...\n", "\nSomething went wrong...\n"], NumResult.eof)
  | line :: rest =>
      if line ∈ _EXIT_WORDS then
        (_SysExitMsg "Thanks!" ++ _SysExitMsg "Thanks!", NumResult.exit rest)
      else
        match coerceNumber line with
        | none =>
            ("Please pick a number." :: (gnirLines a b rest).1, (gnirLines a b rest).2)
        | some v =>
            match evalChainedLe (rangeExprL a v b) with
            | some true => ([], NumResult.ok v rest)
            | some false =>
                (betweenMsg a b :: hintLine a b :: (gnirLines a b rest).1,
                 (gnirLines a b rest).2)
            | none => (["\nSomething went wrong...\n"], NumResult.errored rest)

/-- `GetNumberInRange(min_opt, max_opt)` (source lines 209-236).  The
swap normalization and the `min == max` early return sit at the top of
the `while` loop but are idempotent after the first iteration, so they
are written once up front for each branch; in the degenerate case the
shared bound is returned with nothing printed and nothing read. -/
def GetNumberInRange (min_opt max_opt : Int) (inputs : List String) :
    List String × NumResult :=
  if max_opt < min_opt then
    if min_opt = max_opt then ([], NumResult.ok (PyNum.int min_opt) inputs)
    else (hintLine max_opt min_opt :: (gnirLines max_opt min_opt inputs).1,
          (gnirLines max_opt min_opt inputs).2)
  else
    if max_opt = min_opt then ([], NumResult.ok (PyNum.int max_opt) inputs)
    else (hintLine min_opt max_opt :: (gnirLines min_opt max_opt inputs).1,
          (gnirLines min_opt max_opt inputs).2)

def NUM_ : String := "NUM"

def INT_ : String := "INT"

def FLOAT_ : String := "FLOAT"

/-- Python `int(x)` on a number: truncation toward zero. -/
def pyTrunc : PyNum → Int
  | .int n => n
  | .float m e => Int.tdiv m (10 ^ e)

/-- Python `float(x)` on a number. -/
def pyFloatCast : PyNum → PyNum
  | .int n => pyFloatMk n 0
  | .float m e => PyNum.float m e

/-- The final `data_type` dispatch of `GetNumber` (source lines 201-206);
`none` models the implicit Python `None` when no branch matches. -/
def dataTypeCast (data_type : String) (v : PyNum) : Option PyNum :=
  if data_type = NUM_ then some v
  else if data_type = FLOAT_ then some (pyFloatCast v)
  else if data_type = INT_ then some (PyNum.int (pyTrunc v))
  else none

inductive GetNumResult where
  | ret : Option PyNum → List String → GetNumResult
  | exit : List String → GetNumResult
  | errored : GetNumResult
  | eof : GetNumResult
deriving DecidableEq

/-- `GetNumber(prompt, min_opt, max_opt, data_type)` (source lines
148-206); the Python defaults are `min_opt=-1, max_opt=-1,
data_type=NUM_`.  `SystemExit` is not an `Exception` subclass, so the
`except Exception` handlers let it pass silently; any other propagating
exception makes them print "Something went wrong" and re-raise. -/
def GetNumber (prompt : String) (min_opt max_opt : Int) (data_type : String)
    (inputs : List String) : List String × GetNumResult :=
  match _TruncateAtMax prompt 80 1 with
  | none => ([], GetNumResult.errored)
  | some p =>
      if min_opt = -1 ∧ max_opt = -1 then
        match _AcceptAndValidateNumber inputs with
        | (out, NumResult.ok v rest) =>
            (p :: out, GetNumResult.ret (dataTypeCast data_type v) rest)
        | (out, NumResult.exit rest) => (p :: out, GetNumResult.exit rest)
        | (out, NumResult.errored _) =>
            ((p :: out) ++ ["\nSomething went wrong...\n"], GetNumResult.errored)
        | (out, NumResult.eof) =>
            ((p :: out) ++ ["\nSomething went wrong...\n"], GetNumResult.eof)
      else
        match GetNumberInRange min_opt max_opt inputs with
        | (out, NumResult.ok v rest) =>
            (p :: out, GetNumResult.ret (dataTypeCast data_type v) rest)
        | (out, NumResult.exit rest) => (p :: out, GetNumResult.exit rest)
        | (out, NumResult.errored _) =>
            ((p :: out) ++ ["\nSomething went wrong...\n"], GetNumResult.errored)
        | (out, NumResult.eof) =>
            ((p :: out) ++ ["\nSomething went wrong...\n"], GetNumResult.eof)

/-! ## `GetStringChoice` -/

inductive StrResult where
  | ok : String → List String → StrResult
  | exit : List String → StrResult
  | errored : StrResult
  | eof : StrResult
deriving DecidableEq

def OPTION_TEMPLATE (k d : String) : String := " - '" ++ k ++ "' for '" ++ d ++ "'"

def PAD : Nat := (OPTION_TEMPLATE "" "").length

def MAX_LINE_LEN : Nat := 60

/-- Python `str.ljust(w)`. -/
def ljust (s : String) (w : Nat) : String :=
  s ++ String.mk (List.replicate (w - s.length) ' ')

/-- `max(map(len, kwoptions))` (for a nonempty option list; Python raises
`ValueError` on an empty one, handled in `GetStringChoice`). -/
def maxKeyLen (opts : List (String × String)) : Nat :=
  opts.foldl (fun a p => max a p.1.length) 0

/-- Render the option block, one line per option, in insertion order; the
flag is `false` when a description wrap raised `IndexError` (lines after
the failing one are never printed). -/
def renderOptions (space : Nat) : List (String × String) → List String × Bool
  | [] => ([], true)
  | (k, d) :: rest =>
      match _TruncateAtMax d MAX_LINE_LEN (space + PAD) with
      | none => ([], false)
      | some t =>
          (OPTION_TEMPLATE (ljust k space) t :: (renderOptions space rest).1,
           (renderOptions space rest).2)

/-- The `while` loop of `GetStringChoice` with the loop-invariant prompt
and option rendering precomputed (the source recomputes the same pure
values each iteration).  Key match is exact string equality and is
checked before the exit words, exactly as in the source. -/
def gscLoop (p : String) (optLines : List String) (keys : List String) :
    List String → List String × StrResult
  | [] => (p :: optLines, StrResult.eof)
  | line :: rest =>
      if line ∈ keys then (p :: optLines, StrResult.ok line rest)
      else if line ∈ _EXIT_WORDS then
        ((p :: optLines) ++ _SysExitMsg "Thanks!", StrResult.exit rest)
      else
        ((p :: optLines) ++
           ("That wasn't one of the options." :: (gscLoop p optLines keys rest).1),
         (gscLoop p optLines keys rest).2)

/-- `GetStringChoice(prompt, **kwoptions)` (source lines 19-103), with
the keyword options as an ordered key/description association list.  An
empty option set makes `max()` raise `ValueError` before the loop; a
failing wrap raises `IndexError` out of the loop (neither `except`
clause catches it). -/
def GetStringChoice (prompt : String) (kwoptions : List (String × String))
    (inputs : List String) : List String × StrResult :=
  if kwoptions.isEmpty then ([], StrResult.errored)
  else
    match _TruncateAtMax prompt 80 1 with
    | none => ([], StrResult.errored)
    | some p =>
        match renderOptions (maxKeyLen kwoptions) kwoptions with
        | (ls, true) => gscLoop p ls (kwoptions.map Prod.fst) inputs
        | (ls, false) => (p :: ls, StrResult.errored)

/-! ## Supporting lemmas about the loops -/

theorem coerce_not_exit {line : String} {v : PyNum}
    (hc : coerceNumber line = some v) : line ∉ _EXIT_WORDS := by
  intro hmem
  have hmem' : line = "quit" ∨ line = "exit" ∨ line = "leave" := by
    simpa [_EXIT_WORDS] using hmem
  rcases hmem' with h | h | h
  · rw [h, show coerceNumber "quit" = none by decide] at hc
    exact Option.noConfusion hc
  · rw [h, show coerceNumber "exit" = none by decide] at hc
    exact Option.noConfusion hc
  · rw [h, show coerceNumber "leave" = none by decide] at hc
    exact Option.noConfusion hc

theorem GetNumberInRange_lt (a b : Int) (hab : a < b) (inputs : List String) :
    GetNumberInRange a b inputs =
      (hintLine a b :: (gnirLines a b inputs).1, (gnirLines a b inputs).2) := by
  unfold GetNumberInRange
  rw [if_neg (by omega : ¬ b < a), if_neg (by omega : ¬ b = a)]

theorem gnirLines_exit (a b : Int) (t : String) (rest : List String)
    (ht : t ∈ _EXIT_WORDS) :
    gnirLines a b (t :: rest) = (["Thanks!", "Thanks!"], NumResult.exit rest) := by
  conv_lhs => unfold gnirLines
  rw [if_pos ht]
  rfl

theorem gnirLines_coerce_none (a b : Int) (line : String) (rest : List String)
    (hc : coerceNumber line = none) (hx : line ∉ _EXIT_WORDS) :
    gnirLines a b (line :: rest) =
      ("Please pick a number." :: (gnirLines a b rest).1, (gnirLines a b rest).2) := by
  conv_lhs => unfold gnirLines
  rw [if_neg hx, hc]

theorem gnirLines_coerce_some (a b : Int) (line : String) (v : PyNum)
    (rest : List String) (hc : coerceNumber line = some v) :
    gnirLines a b (line :: rest) =
      (if inRangeB a v b then ([], NumResult.ok v rest)
       else (betweenMsg a b :: hintLine a b :: (gnirLines a b rest).1,
             (gnirLines a b rest).2)) := by
  conv_lhs => unfold gnirLines
  rw [if_neg (coerce_not_exit hc), hc]
  show (match evalChainedLe (rangeExprL a v b) with
        | some true => ([], NumResult.ok v rest)
        | some false => (betweenMsg a b :: hintLine a b :: (gnirLines a b rest).1,
                         (gnirLines a b rest).2)
        | none => (["\nSomething went wrong...\n"], NumResult.errored rest)) = _
  rw [evalRangeExpr]
  cases hr : inRangeB a v b
  · rfl
  · rfl

theorem GetStringChoice_eq (prompt : String) (opts : List (String × String))
    (p : String) (ls : List String) (inputs : List String)
    (hne : opts ≠ [])
    (hp : _TruncateAtMax prompt 80 1 = some p)
    (hr : renderOptions (maxKeyLen opts) opts = (ls, true)) :
    GetStringChoice prompt opts inputs = gscLoop p ls (opts.map Prod.fst) inputs := by
  unfold GetStringChoice
  rw [if_neg (by simpa [List.isEmpty_iff] using hne), hp, hr]

/-! ## The claims -/

/-- **C1.** The claim says `GetNumberInRange(5, 5)` raises a configuration
error immediately and does not return the shared bound.  The code instead
silently returns the shared bound (its own comment: "Ideally, this would
raise an error. TODO: Figure out what to raise here."): with equal bounds
it prints nothing, reads no input (the pending line is left untouched),
and returns the bound value `5`. -/
theorem getNumberInRange_degenerate_returns_bound :
    GetNumberInRange 5 5 ["7"] = ([], NumResult.ok (PyNum.int 5) ["7"]) := by
  decide

/-- **C2 (amended).** For normalized bounds `min < max` and a successfully
coerced value `v`: the range test is the `eval` of the synthesized text
`f"{min}<={v}<={max}"`, which always evaluates to exactly the native
chained comparison `min ≤ v ≤ max`; the value is accepted and returned
iff that comparison holds, and otherwise the out-of-range message is
printed and the loop continues. -/
theorem getNumberInRange_accepts_iff_inRange (a b : Int) (hab : a < b)
    (line : String) (v : PyNum) (rest : List String)
    (hc : coerceNumber line = some v) :
    (evalChainedLe (rangeExprL a v b) = some (inRangeB a v b))
    ∧ (inRangeB a v b = true →
        GetNumberInRange a b (line :: rest) = ([hintLine a b], NumResult.ok v rest))
    ∧ (inRangeB a v b = false →
        GetNumberInRange a b (line :: rest) =
          (hintLine a b :: betweenMsg a b :: hintLine a b :: (gnirLines a b rest).1,
           (gnirLines a b rest).2)) := by
  refine ⟨evalRangeExpr a b v, ?_, ?_⟩
  · intro hr
    rw [GetNumberInRange_lt a b hab, gnirLines_coerce_some a b line v rest hc, hr]
    rfl
  · intro hr
    rw [GetNumberInRange_lt a b hab, gnirLines_coerce_some a b line v rest hc, hr]
    rfl

/-- **C2, counterexample to the claim as stated.**  The claim says the
range check is "never by synthesizing and evaluating a text expression".
The code's check (source line 229) is exactly the evaluation of the
synthesized text `f"{min_opt}<={num_choice}<={max_opt}"` — here the
string `"1<=5<=10"` — as `GetNumberInRange`'s accept test. -/
theorem rangeCheck_synthesizes_text_expr :
    String.mk (rangeExprL 1 (PyNum.int 5) 10) = "1<=5<=10"
    ∧ evalChainedLe (rangeExprL 1 (PyNum.int 5) 10) = some true := by
  constructor
  · decide
  · decide

theorem getNumberInRange_accepts_iff_inRange_witness :
    GetNumberInRange 1 10 ["5"] = ([hintLine 1 10], NumResult.ok (PyNum.int 5) []) :=
  (getNumberInRange_accepts_iff_inRange 1 10 (by decide) "5" (PyNum.int 5) []
    (by decide)).2.1 (by decide)

theorem avn_exit (t : String) (rest : List String) (ht : t ∈ _EXIT_WORDS) :
    _AcceptAndValidateNumber (t :: rest) = (["Thanks!"], NumResult.exit rest) := by
  conv_lhs => unfold _AcceptAndValidateNumber
  rw [if_pos ht]
  rfl

theorem avn_ok (line : String) (v : PyNum) (rest : List String)
    (hc : coerceNumber line = some v) :
    _AcceptAndValidateNumber (line :: rest) = ([], NumResult.ok v rest) := by
  conv_lhs => unfold _AcceptAndValidateNumber
  rw [if_neg (coerce_not_exit hc), hc]

theorem avn_retry (line : String) (rest : List String)
    (hc : coerceNumber line = none) (hx : line ∉ _EXIT_WORDS) :
    _AcceptAndValidateNumber (line :: rest) =
      ("Please pick a number." :: (_AcceptAndValidateNumber rest).1,
       (_AcceptAndValidateNumber rest).2) := by
  conv_lhs => unfold _AcceptAndValidateNumber
  rw [if_neg hx, hc]

/-- **C3 (amended).** Supplying any of the three exit tokens to any
prompt prints the farewell "Thanks!" and raises a `SystemExit` that
propagates to the caller; for a fixed prompt the behavior is identical
across the three tokens.  However the farewell count differs by prompt:
`GetStringChoice` and the bare reader `_AcceptAndValidateNumber` (the
unrestricted `GetNumber` path) print it once, while `GetNumberInRange`
prints it twice — once inside `_AcceptAndValidateNumber` and once more
when its own `except SystemExit` handler calls `_SysExitMsg()` again. -/
theorem exit_tokens_farewell_behavior (t : String) (ht : t ∈ _EXIT_WORDS)
    (rest : List String) (prompt : String) (opts : List (String × String))
    (p : String) (ls : List String)
    (hne : opts ≠ []) (hknot : t ∉ opts.map Prod.fst)
    (hp : _TruncateAtMax prompt 80 1 = some p)
    (hr : renderOptions (maxKeyLen opts) opts = (ls, true))
    (a b : Int) (hab : a < b) :
    GetStringChoice prompt opts (t :: rest) = ((p :: ls) ++ ["Thanks!"], StrResult.exit rest)
    ∧ _AcceptAndValidateNumber (t :: rest) = (["Thanks!"], NumResult.exit rest)
    ∧ GetNumberInRange a b (t :: rest) =
        ([hintLine a b, "Thanks!", "Thanks!"], NumResult.exit rest) := by
  refine ⟨?_, avn_exit t rest ht, ?_⟩
  · rw [GetStringChoice_eq prompt opts p ls _ hne hp hr]
    conv_lhs => unfold gscLoop
    rw [if_neg hknot, if_pos ht]
    rfl
  · rw [GetNumberInRange_lt a b hab, gnirLines_exit a b t rest ht]

/-- **C3, counterexample to the claim as stated.**  The claim says the
farewell is printed exactly once with identical output regardless of the
active prompt.  `GetNumberInRange` prints "Thanks!" twice on an exit
token, while `GetStringChoice` prints it once. -/
theorem getNumberInRange_farewell_twice :
    GetNumberInRange 1 10 ["quit"] =
      (["(min = 1, max = 10)", "Thanks!", "Thanks!"], NumResult.exit [])
    ∧ (GetNumberInRange 1 10 ["quit"]).1.count "Thanks!" = 2
    ∧ GetStringChoice "Q" [("y", "yes")] ["quit"] =
        (["Q", " - 'y' for 'yes'", "Thanks!"], StrResult.exit [])
    ∧ (GetStringChoice "Q" [("y", "yes")] ["quit"]).1.count "Thanks!" = 1 := by
  refine ⟨?_, ?_, ?_, ?_⟩ <;> decide

theorem exit_tokens_farewell_behavior_witness :
    GetStringChoice "Q" [("y", "yes")] ["exit"] =
      (("Q" :: [" - 'y' for 'yes'"]) ++ ["Thanks!"], StrResult.exit [])
    ∧ _AcceptAndValidateNumber ["exit"] = (["Thanks!"], NumResult.exit [])
    ∧ GetNumberInRange 1 10 ["exit"] =
        ([hintLine 1 10, "Thanks!", "Thanks!"], NumResult.exit []) :=
  exit_tokens_farewell_behavior "exit" (by decide) [] "Q" [("y", "yes")] "Q"
    [" - 'y' for 'yes'"] (by decide) (by decide) (by decide) (by decide) 1 10 (by decide)

/-- **C4 (amended).** For normalized bounds `min < max`, the range hint
is printed once before the first read; a non-numeric rejection (handled
inside `_AcceptAndValidateNumber`) does not re-print it, but every
out-of-range rejection does, because the outer `while` loop prints the
hint at the top of each iteration. -/
theorem range_hint_printing_policy (a b : Int) (hab : a < b) (line : String)
    (rest : List String) :
    (coerceNumber line = none → line ∉ _EXIT_WORDS →
      GetNumberInRange a b (line :: rest) =
        (hintLine a b :: "Please pick a number." :: (gnirLines a b rest).1,
         (gnirLines a b rest).2))
    ∧ (∀ v, coerceNumber line = some v → inRangeB a v b = false →
      GetNumberInRange a b (line :: rest) =
        (hintLine a b :: betweenMsg a b :: hintLine a b :: (gnirLines a b rest).1,
         (gnirLines a b rest).2)) := by
  constructor
  · intro hc hx
    rw [GetNumberInRange_lt a b hab, gnirLines_coerce_none a b line rest hc hx]
  · intro v hc hr
    rw [GetNumberInRange_lt a b hab, gnirLines_coerce_some a b line v rest hc, hr]
    rfl

/-- **C4, counterexample to the claim as stated.**  The claim says the
hint is printed exactly once per `GetNumberInRange` call and never
re-printed on an invalid attempt; after the out-of-range input `"20"`
the hint line appears a second time before the next read. -/
theorem range_hint_reprinted_on_out_of_range :
    GetNumberInRange 1 10 ["20", "5"] =
      (["(min = 1, max = 10)", "Please pick a number between 1 and 10.",
        "(min = 1, max = 10)"], NumResult.ok (PyNum.int 5) [])
    ∧ (GetNumberInRange 1 10 ["20", "5"]).1.count "(min = 1, max = 10)" = 2 := by
  constructor <;> decide

theorem range_hint_printing_policy_witness :
    GetNumberInRange 1 10 ["abc"] =
      (hintLine 1 10 :: "Please pick a number." :: (gnirLines 1 10 []).1,
       (gnirLines 1 10 []).2) :=
  (range_hint_printing_policy 1 10 (by decide) "abc" []).1 (by decide) (by decide)

/-- **C5.** The numeric coercion rule of `_AcceptAndValidateNumber`:
`"5"` gives the integer `5`; `"5.0"` and `"5."` both give the float of
value `5.0`; a coerced value is tagged float exactly when the raw line
contains a literal decimal point; `"abc"` fails to parse, prints
"Please pick a number." and the loop continues with the next line (no
exception escapes); and a coercible non-exit line is returned at once. -/
theorem numeric_coercion_rule :
    (coerceNumber "5" = some (PyNum.int 5))
    ∧ (coerceNumber "5.0" = some (PyNum.float 50 1) ∧ PyNum.val (PyNum.float 50 1) = 5)
    ∧ (coerceNumber "5." = some (PyNum.float 50 1))
    ∧ (∀ line v, coerceNumber line = some v →
        ((∃ m e, v = PyNum.float m e) ↔ line.toList.any (fun c => c == '.') = true))
    ∧ (coerceNumber "abc" = none)
    ∧ (∀ rest, _AcceptAndValidateNumber ("abc" :: rest) =
        ("Please pick a number." :: (_AcceptAndValidateNumber rest).1,
         (_AcceptAndValidateNumber rest).2))
    ∧ (∀ line v rest, coerceNumber line = some v →
        _AcceptAndValidateNumber (line :: rest) = ([], NumResult.ok v rest)) := by
  refine ⟨by decide, ⟨by decide, by norm_num [PyNum.val]⟩, by decide, ?_, by decide, ?_, ?_⟩
  · intro line v hc
    unfold coerceNumber at hc
    cases hp : parseDecL line.toList with
    | none => rw [hp] at hc; exact Option.noConfusion hc
    | some me =>
        obtain ⟨m, e⟩ := me
        rw [hp] at hc
        have hc' : (if line.toList.any (fun c => c == '.') then some (pyFloatMk m e)
            else some (PyNum.int m)) = some v := hc
        by_cases hd : line.toList.any (fun c => c == '.') = true
        · rw [if_pos hd] at hc'
          have hv : v = pyFloatMk m e := (Option.some.inj hc').symm
          constructor
          · intro _; exact hd
          · intro _
            exact ⟨(normFloat m e).1, (normFloat m e).2, hv⟩
        · rw [if_neg hd] at hc'
          have hv : v = PyNum.int m := (Option.some.inj hc').symm
          constructor
          · rintro ⟨m', e', hfe⟩
            rw [hv] at hfe
            exact PyNum.noConfusion hfe
          · intro hdd
            exact absurd hdd hd
  · intro rest
    exact avn_retry "abc" rest (by decide) (by decide)
  · intro line v rest hc
    exact avn_ok line v rest hc

theorem numeric_coercion_rule_witness :
    ((∃ m e, PyNum.float 50 1 = PyNum.float m e) ↔
      ("5.0".toList.any (fun c => c == '.') = true))
    ∧ _AcceptAndValidateNumber ["5.0"] = ([], NumResult.ok (PyNum.float 50 1) []) :=
  ⟨numeric_coercion_rule.2.2.2.1 "5.0" (PyNum.float 50 1) (by decide),
   numeric_coercion_rule.2.2.2.2.2.2 "5.0" (PyNum.float 50 1) [] (by decide)⟩

/-- **C6.** For a non-empty option set whose prompt and descriptions
render (the wrap succeeds — it fails only on the pathological
whitespace-only inputs of C10), supplying a key `k` of the set as the
input line makes `GetStringChoice` return `k` immediately: the output is
exactly the prompt line and the option block, with no rejection message.
The comparison is exact string equality on the raw line (`user_choice in
kwoptions`), with no trimming and no case folding; the source has no
description-return mode — the key itself is always returned. -/
theorem getStringChoice_accepts_key (prompt k : String)
    (opts : List (String × String)) (p : String) (ls : List String)
    (rest : List String)
    (hne : opts ≠ []) (hk : k ∈ opts.map Prod.fst)
    (hp : _TruncateAtMax prompt 80 1 = some p)
    (hr : renderOptions (maxKeyLen opts) opts = (ls, true)) :
    GetStringChoice prompt opts (k :: rest) = (p :: ls, StrResult.ok k rest) := by
  rw [GetStringChoice_eq prompt opts p ls _ hne hp hr]
  conv_lhs => unfold gscLoop
  rw [if_pos hk]

theorem getStringChoice_accepts_key_witness :
    GetStringChoice "Q" [("y", "yes"), ("n", "no")] ["n", "later"] =
      ("Q" :: [" - 'y' for 'yes'", " - 'n' for 'no'"], StrResult.ok "n" ["later"]) :=
  getStringChoice_accepts_key "Q" "n" [("y", "yes"), ("n", "no")] "Q"
    [" - 'y' for 'yes'", " - 'n' for 'no'"] ["later"] (by decide) (by decide)
    (by decide) (by decide)

/-- **C7.** Range normalization: for reversed bounds `b < a`, a call
with `(min_opt, max_opt) = (a, b)` is literally the same computation as
one with `(b, a)` — the silent swap at the top of the loop makes output
and result coincide for every input sequence. -/
theorem getNumberInRange_swap_equiv (a b : Int) (h : b < a) (inputs : List String) :
    GetNumberInRange a b inputs = GetNumberInRange b a inputs := by
  unfold GetNumberInRange
  rw [if_pos h, if_neg (by omega : ¬ a < b)]

theorem getNumberInRange_swap_equiv_witness :
    GetNumberInRange 10 1 ["5"] = GetNumberInRange 1 10 ["5"] :=
  getNumberInRange_swap_equiv 10 1 (by decide) ["5"]

/-- **C8 (amended).** For a text longer than the width that contains at
least one whitespace-separated token, the wrapper returns a string, and
splitting that output on whitespace (which strips the inserted line
breaks and hanging-indent spaces and collapses whitespace) reproduces
the token sequence of the input exactly — no token lost or duplicated,
the final accumulated line included.  (For a whitespace-only text the
wrapper instead raises `IndexError` and returns nothing; see C10.) -/
theorem truncate_preserves_tokens (s : String) (W sp : Nat)
    (hlen : (W : Int) < (s.length : Int))
    (hw : wordsL s.toList ≠ []) :
    ∃ out : String, _TruncateAtMax s W sp = some out ∧
      wordsL out.toList = wordsL s.toList := by
  have hg : ¬ ((s.toList.length : Int) ≤ (W : Int) - (sp : Int)) := by
    have hlen' : s.toList.length = s.length := rfl
    rw [hlen']
    omega
  obtain ⟨out, h1, h2⟩ := truncL_words s.toList W sp hg hw
  refine ⟨String.mk out, ?_, ?_⟩
  · unfold _TruncateAtMax
    rw [h1]
    rfl
  · have hmk : (String.mk out).toList = out := rfl
    rw [hmk, h2]

/-- **C8, counterexample to the claim as stated.**  A whitespace-only
text longer than the width is "text longer than W", yet the wrapper
produces no output at all (it raises `IndexError`), so no reassembly of
its output can reproduce the (empty) token sequence. -/
theorem truncate_whitespace_only_no_output :
    (("      ".length : Int) > 3)
    ∧ ¬ ∃ out : String, _TruncateAtMax "      " 3 1 = some out := by
  constructor
  · decide
  · rintro ⟨o, h⟩
    rw [show _TruncateAtMax "      " 3 1 = none by decide] at h
    exact Option.noConfusion h

theorem truncate_preserves_tokens_witness :
    ∃ out : String, _TruncateAtMax "aa bb cc" 5 1 = some out ∧
      wordsL out.toList = wordsL "aa bb cc".toList :=
  truncate_preserves_tokens "aa bb cc" 5 1 (by decide) (by decide)

/-- **C9.** A text already short enough (strictly shorter than the width
minus the indent allowance) is returned unchanged, and on such inputs
the wrapper is idempotent. -/
theorem truncate_short_input_identity (s : String) (W sp : Nat)
    (_hW : 0 < W) (h : (s.length : Int) < (W : Int) - (sp : Int)) :
    _TruncateAtMax s W sp = some s
    ∧ (_TruncateAtMax s W sp).bind (fun t => _TruncateAtMax t W sp) =
        _TruncateAtMax s W sp := by
  have hg : (s.toList.length : Int) ≤ (W : Int) - (sp : Int) := by
    have hlen' : s.toList.length = s.length := rfl
    rw [hlen']
    omega
  have h1 : _TruncateAtMax s W sp = some s := by
    unfold _TruncateAtMax truncL
    rw [if_pos hg]
    rfl
  refine ⟨h1, ?_⟩
  rw [h1]
  show _TruncateAtMax s W sp = some s
  exact h1

theorem truncate_short_input_identity_witness :
    _TruncateAtMax "hi" 10 1 = some "hi"
    ∧ (_TruncateAtMax "hi" 10 1).bind (fun t => _TruncateAtMax t 10 1) =
        _TruncateAtMax "hi" 10 1 :=
  truncate_short_input_identity "hi" 10 1 (by decide) (by decide)

/-- **C10.** For any whitespace-only string longer than
`max_len - spacer`, `_TruncateAtMax` does not return a string: the split
yields no tokens, the joined result is empty, and indexing its first
character raises `IndexError` (modelled as `none`). -/
theorem truncate_whitespace_raises (s : String) (max_len spacer : Nat)
    (hws : ∀ c ∈ s.toList, c.isWhitespace = true)
    (hlen : (max_len : Int) - (spacer : Int) < (s.length : Int)) :
    _TruncateAtMax s max_len spacer = none := by
  have hg : ¬ ((s.toList.length : Int) ≤ (max_len : Int) - (spacer : Int)) := by
    have hlen' : s.toList.length = s.length := rfl
    rw [hlen']
    omega
  have hwords : wordsL s.toList = [] := by
    have hsplit := wordsL_ws_prefix s.toList hws []
    rw [List.append_nil] at hsplit
    rw [hsplit]
    rfl
  unfold _TruncateAtMax truncL
  rw [if_neg hg, hwords]
  rfl

theorem truncate_whitespace_raises_witness :
    _TruncateAtMax "    " 2 0 = none :=
  truncate_whitespace_raises "    " 2 0 (by decide) (by decide)
